import Mathlib

/-!
Shallow embedding of the "crabe-de-la-crabe" Discord bot core
(`src/main.rs`, `Handler::message`): keyword matcher, per-author mention
counter, longest-gap record tracker and periodic leaderboard report
scheduler.  Time instants and durations are modelled as natural numbers
(`Instant::now` is monotone, subtraction is `checked_duration_since`).
-/

namespace Crabe

/-- Author identities (`serenity::UserId`), modelled as naturals. -/
abbrev UserId := Nat

/-- Rust `Instant::checked_duration_since`: `some (now - earlier)` when
`earlier <= now`, otherwise `none`. -/
def checkedDurationSince (now earlier : Nat) : Option Nat :=
  if earlier ≤ now then some (now - earlier) else none

/-! ### Record tracker (`struct Record`, lines 22-26 and 142-217) -/

/-- The `Record` struct: `last_mention: Option<Instant>`,
`duration: Option<Duration>` (the best gap observed so far). -/
structure Record where
  last_mention : Option Nat
  duration : Option Nat
  deriving DecidableEq, Repr

/-- Initial record state installed in `main` (lines 240-243): both fields
absent. -/
def initRecord : Record := ⟨none, none⟩

/-- Outcome of one record-tracker observation, the spec's `RecordOutcome`.
In the code a record announcement is sent exactly in the
`recordBroken` case. -/
inductive RecordOutcome where
  | noPriorMention : RecordOutcome
  | recordBroken : Nat → RecordOutcome
  | recordNotBroken : Nat → RecordOutcome
  deriving DecidableEq, Repr

/-- The record-tracker step, translated from lines 148-217 of
`Handler::message`:
the gap is `now.checked_duration_since(last_mention)` when a prior mention
exists; the `(Some current, Some previous) if current.gt(&previous)` match
arm announces a new record and stores `duration = current`; the final block
always sets `last_mention = now` and resets `duration` to zero whenever the
gap was not computable. -/
def observe (r : Record) (now : Nat) : Record × RecordOutcome :=
  let gap : Option Nat :=
    match r.last_mention with
    | some t => checkedDurationSince now t
    | none => none
  match gap, r.duration with
  | some current, some previous =>
      if previous < current then
        (⟨some now, some current⟩, RecordOutcome.recordBroken current)
      else
        (⟨some now, some previous⟩, RecordOutcome.recordNotBroken current)
  | some current, none =>
      (⟨some now, none⟩, RecordOutcome.recordNotBroken current)
  | none, _ =>
      (⟨some now, some 0⟩, RecordOutcome.noPriorMention)

/-- The record state after processing a sequence of qualifying mentions,
starting from the initial state. -/
def observeTrace (nows : List Nat) : Record :=
  nows.foldl (fun r n => (observe r n).1) initRecord

/-! ### Mention counter (`MentionCount`, lines 34-38 and 63-77) -/

/-- The counter table `HashMap<UserId, AtomicUsize>`, modelled as an
association list. -/
abbrev CounterTable := List (UserId × Nat)

/-- Lookup of an author's stored count (first matching key). -/
def lookupCount : CounterTable → UserId → Option Nat
  | [], _ => none
  | (k, v) :: rest, a => if k = a then some v else lookupCount rest a

/-- The author's stored count, zero when absent. -/
def lookupCountD (t : CounterTable) (a : UserId) : Nat :=
  (lookupCount t a).getD 0

/-- In-place update of an author's entry, appending a fresh entry when the
key is absent (the `HashMap::entry` API). -/
def setCount : CounterTable → UserId → Nat → CounterTable
  | [], a, c => [(a, c)]
  | (k, v) :: rest, a, c =>
      if k = a then (a, c) :: rest else (k, v) :: setCount rest a c

/-- One counter update, translated from lines 70-77:
`entry(author).or_insert(0)` then `fetch_add(1)` then `load` — the entry is
created at 0 when absent, incremented by one, and the post-increment value
is returned. -/
def record_mention (t : CounterTable) (a : UserId) : CounterTable × Nat :=
  let c := lookupCountD t a + 1
  (setCount t a c, c)

/-- The values returned by `record_mention` for a sequence of qualifying
mentions (one author per event), starting from the table `t`. -/
def runCounter : CounterTable → List UserId → List Nat
  | _, [] => []
  | t, a :: rest =>
      let s := record_mention t a
      s.2 :: runCounter s.1 rest

/-- The counter table after a sequence of qualifying mentions starting from
the empty table of `main` (line 244). -/
def counterTableOf (authors : List UserId) : CounterTable :=
  authors.foldl (fun t a => (record_mention t a).1) []

/-! ### Keyword matcher (lines 51-58) -/

/-- The regex word-character class `\w` restricted to ASCII: exactly
`[0-9A-Za-z_]`.  The program's `regex` crate resolves the word boundary
`\b` against its default Unicode-aware `\w` (alphabetic characters of any
script, marks, decimal digits, connector punctuation); that full class is
library code outside this repository, so every definition below takes the
class as a parameter `w : Char → Bool` and constrains it, where concrete
values are needed, only by its documented agreement with this function on
the ASCII range. -/
def asciiWordChar (c : Char) : Bool :=
  (65 ≤ c.toNat && c.toNat ≤ 90) || (97 ≤ c.toNat && c.toNat ≤ 122) ||
    (48 ≤ c.toNat && c.toNat ≤ 57) || c.toNat == 95

/-- The keyword, as the character list the regex `\brust\b` searches
for. -/
def rustWord : List Char := ['r', 'u', 's', 't']

/-- Does `rust` occur at the front of the list, with a word boundary on
the right (end of input or a non-word character per the class `w`)? -/
def rustHere (w : Char → Bool) (l : List Char) : Bool :=
  match l with
  | c1 :: c2 :: c3 :: c4 :: rest =>
      c1 == 'r' && c2 == 'u' && c3 == 's' && c4 == 't' &&
        (match rest with
         | [] => true
         | c :: _ => !(w c))
  | _ => false

/-- Scan for `\brust\b` with word-character class `w`: `prevWord` records
whether the character just before the current position is a word
character (the left boundary). -/
def rustSearch (w : Char → Bool) : Bool → List Char → Bool
  | _, [] => false
  | prevWord, c :: rest =>
      (!prevWord && rustHere w (c :: rest)) || rustSearch w (w c) rest

/-- The regex test `RE.is_match` for the pattern `\brust\b`, on a
character list, for the engine's word-character class `w`. -/
def reIsMatch (w : Char → Bool) (s : List Char) : Bool := rustSearch w false s

/-- The keyword matcher of line 56:
`RE.is_match(&msg.content.to_ascii_lowercase())`, with the regex engine's
word-character class `w`.  The text is ASCII lower-cased character by
character (Lean core's `Char.toLower` maps exactly the range `A`-`Z` by
adding 32, the same transformation as Rust's `char::to_ascii_lowercase`)
and searched for `\brust\b`. -/
def matchesRustWith (w : Char → Bool) (text : String) : Bool :=
  reIsMatch w (text.data.map Char.toLower)

/-- Specification-side predicate, written from the spec's words: the
keyword appears in the text as a whole word — a run of characters that
ASCII-case-folds to `rust`, bounded on each side by a non-word character
(per the class `w`) or a string edge. -/
def wholeWordRustWith (w : Char → Bool) (text : String) : Prop :=
  ∃ pre wd post : List Char,
    text.data = pre ++ wd ++ post ∧
    wd.map Char.toLower = rustWord ∧
    (∀ c, pre.getLast? = some c → w c = false) ∧
    (∀ c, post.head? = some c → w c = false)

/-- Left-boundary condition carried by the scanner: at the very start of
the text the boundary holds iff no word character precedes. -/
def leftBoundary (w : Char → Bool) (prev : Bool) (pre : List Char) : Prop :=
  match pre.getLast? with
  | none => prev = false
  | some c => w c = false

/-! ### Report scheduler (`LastReport`, lines 40-44 and 85-100) -/

/-- The five-day report interval, `Duration::from_secs(60 * 60 * 24 * 5)`
in the code. -/
def REPORT_INTERVAL : Nat := 60 * 60 * 24 * 5

/-- The report decision, translated from lines 85-100: when
`now.checked_duration_since(last_report)` yields a duration of at least
`REPORT_INTERVAL`, the stored instant advances to `now` and the report
fires; otherwise nothing changes. Returns (fired, new last-report
instant). -/
def maybeReport (lastReport now : Nat) : Bool × Nat :=
  match checkedDurationSince now lastReport with
  | some d => if REPORT_INTERVAL ≤ d then (true, now) else (false, lastReport)
  | none => (false, lastReport)

/-- The instants at which reports fire along a sequence of qualifying
mentions, given the stored last-report instant. -/
def firedTimes (r : Nat) : List Nat → List Nat
  | [] => []
  | n :: rest =>
      let s := maybeReport r n
      if s.1 then n :: firedTimes s.2 rest else firedTimes s.2 rest

/-! ### Leaderboard (lines 109-120) -/

/-- The comparison `sort_by_key(|(_, count)| count)` sorts by. -/
def byCount (a b : UserId × Nat) : Prop := a.2 ≤ b.2

instance : DecidableRel byCount := fun a b => Nat.decLe a.2 b.2

instance : IsTotal (UserId × Nat) byCount :=
  ⟨fun a b => Nat.le_total a.2 b.2⟩

instance : IsTrans (UserId × Nat) byCount :=
  ⟨fun _ _ _ h1 h2 => Nat.le_trans h1 h2⟩

/-- The leaderboard construction of lines 109-120: collect the table,
sort ascending by count (`sort_by_key` is a stable sort), then walk it in
reverse and keep the first `n` entries (`iter().rev().take(10)`). -/
def top_n (t : CounterTable) (n : Nat) : List (UserId × Nat) :=
  ((List.insertionSort byCount t).reverse).take n

/-! ### The message handler (`Handler::message`, lines 50-218) -/

/-- An outbound announcement handed to the chat collaborator: either the
leaderboard embed sent to the `random` channel or the new-record embed
sent to the triggering channel. -/
inductive Announcement where
  | leaderboard : List (UserId × Nat) → Announcement
  | record : Nat → Announcement
  deriving DecidableEq, Repr

/-- The shared state living in the client's `TypeMap`: the record tracker,
the counter table and the last-report instant. -/
structure SysState where
  record : Record
  counter : CounterTable
  lastReport : Nat
  deriving DecidableEq, Repr

/-- An inbound `Message`, reduced to the fields the handler reads. -/
structure Msg where
  authorId : UserId
  content : String
  deriving Repr

/-- Environment facts the handler consults when delivering announcements:
whether the guild is known and has a `random` channel, and whether each of
the two sends succeeds.  Send failures are only logged (lines 124-136 and
181-197). -/
structure DeliveryEnv where
  hasRandomChannel : Bool
  reportSendOk : Bool
  recordSendOk : Bool

/-- The handler `Handler::message`, lines 50-218, as a sequential state
transformer, parameterized by the regex engine's word-character class `w`.
Returns the new shared state, the announcements the handler attempts to
send, and the error log lines produced by failed sends.  The guard of
lines 55-59 drops the event when the author is the bot itself or the text
does not match; then the counter is bumped (lines 63-77), the report
decision runs (lines 85-100) with the leaderboard built from the
post-increment table (lines 109-120), and the record tracker runs
(lines 142-217). -/
def message (w : Char → Bool) (botId : UserId) (env : DeliveryEnv)
    (st : SysState) (m : Msg) (now : Nat) :
    SysState × List Announcement × List String :=
  if m.authorId == botId || !(matchesRustWith w m.content) then (st, [], [])
  else
    let s1 := record_mention st.counter m.authorId
    let rep := maybeReport st.lastReport now
    let repAnns : List Announcement :=
      if rep.1 && env.hasRandomChannel then
        [Announcement.leaderboard (top_n s1.1 10)]
      else []
    let repLog : List String :=
      if rep.1 && env.hasRandomChannel && !env.reportSendOk then
        ["report send failed"]
      else []
    let s2 := observe st.record now
    let recAnns : List Announcement :=
      match s2.2 with
      | RecordOutcome.recordBroken g => [Announcement.record g]
      | _ => []
    let recLog : List String :=
      match s2.2 with
      | RecordOutcome.recordBroken _ =>
          if env.recordSendOk then [] else ["record send failed"]
      | _ => []
    (⟨s2.1, s1.1, rep.2⟩, repAnns ++ recAnns, repLog ++ recLog)

/-- The table's key list, used to state that lookups are unambiguous. -/
def tableKeys (t : CounterTable) : List UserId := t.map Prod.fst

/-- Total number of mentions recorded in the table. -/
def sumCounts (t : CounterTable) : Nat := (t.map Prod.snd).sum

/-- Claim C7 as stated: along any processed trace, once `best_gap` is set,
any change to it strictly increases it, or resets it to zero in the case
where no prior mention was recorded. -/
def bestGapMonotoneClaim : Prop :=
  ∀ (nows : List Nat) (now : Nat) (b b' : Nat),
    (observeTrace nows).duration = some b →
    ((observe (observeTrace nows) now).1).duration = some b' →
    b' ≠ b →
    (b < b' ∨ (b' = 0 ∧ (observeTrace nows).last_mention = none))

/-- Claim C6 as stated: every leaderboard has at most ten entries, is
sorted strictly descending by count, and reports the stored counts. -/
def topTenClaim : Prop :=
  ∀ t : CounterTable,
    (top_n t 10).length ≤ 10 ∧
    List.Chain' (fun a b => b.2 < a.2) (top_n t 10) ∧
    (∀ p ∈ top_n t 10, lookupCount t p.1 = some p.2)

/-! ## Theorems -/

/-! ### Record tracker: step characterizations -/

theorem observe_no_prior (r : Record) (now : Nat)
    (h : r.last_mention = none) :
    observe r now = (⟨some now, some 0⟩, RecordOutcome.noPriorMention) := by
  simp [observe, h]

theorem observe_stale (r : Record) (now t : Nat)
    (h : r.last_mention = some t) (hlt : now < t) :
    observe r now = (⟨some now, some 0⟩, RecordOutcome.noPriorMention) := by
  simp [observe, h, checkedDurationSince, Nat.not_le.mpr hlt]

theorem observe_broken (r : Record) (now t : Nat) (b : Nat)
    (h : r.last_mention = some t) (hle : t ≤ now) (hb : r.duration = some b)
    (hgt : b < now - t) :
    observe r now =
      (⟨some now, some (now - t)⟩, RecordOutcome.recordBroken (now - t)) := by
  simp [observe, h, hb, checkedDurationSince, hle, hgt]

theorem observe_not_broken (r : Record) (now t : Nat) (b : Nat)
    (h : r.last_mention = some t) (hle : t ≤ now) (hb : r.duration = some b)
    (hge : now - t ≤ b) :
    observe r now =
      (⟨some now, some b⟩, RecordOutcome.recordNotBroken (now - t)) := by
  simp [observe, h, hb, checkedDurationSince, hle, Nat.not_lt.mpr hge]

/-- The step `observe` preserves the well-formedness invariant that `duration` can
be absent only while `last_mention` is absent. -/
theorem observe_preserves_wf (r : Record) (n : Nat)
    (h : r.duration = none → r.last_mention = none) :
    ((observe r n).1).duration = none → ((observe r n).1).last_mention = none := by
  cases hlm : r.last_mention with
  | none => rw [observe_no_prior r n hlm]; intro hc; cases hc
  | some t =>
      rcases Nat.lt_or_ge n t with hlt | hge
      · rw [observe_stale r n t hlm hlt]; intro hc; cases hc
      · cases hb : r.duration with
        | none => rw [h hb] at hlm; cases hlm
        | some b =>
            rcases Nat.lt_or_ge b (n - t) with hbt | hbt
            · rw [observe_broken r n t b hlm hge hb hbt]; intro hc; cases hc
            · rw [observe_not_broken r n t b hlm hge hb hbt]
              intro hc; cases hc

theorem foldl_observe_wf (l : List Nat) (r : Record)
    (h : r.duration = none → r.last_mention = none) :
    (l.foldl (fun r n => (observe r n).1) r).duration = none →
      (l.foldl (fun r n => (observe r n).1) r).last_mention = none := by
  induction l generalizing r with
  | nil => simpa using h
  | cons n rest ih => simpa using ih _ (observe_preserves_wf r n h)

/-- Along any processed trace, when a prior mention is recorded a best gap
is recorded as well. -/
theorem observeTrace_duration_isSome (nows : List Nat) (t : Nat)
    (h : (observeTrace nows).last_mention = some t) :
    ∃ b, (observeTrace nows).duration = some b := by
  cases hb : (observeTrace nows).duration with
  | some b => exact ⟨b, rfl⟩
  | none =>
      have := foldl_observe_wf nows initRecord (fun _ => rfl) hb
      rw [observeTrace] at h
      rw [this] at h
      cases h

/-- C1: on a qualifying mention with a recorded prior mention at `t ≤ now`
and gap `now - t`, the tracker has a recorded best gap `b` (along program
traces `best_gap` is never absent while `last_mention` is set); if the gap
strictly exceeds `b` the outcome is `RecordBroken` and the state stores
the new gap and `now`, otherwise (including an exactly equal gap) the
outcome is `RecordNotBroken`, the best gap is unchanged and only
`last_mention` advances to `now`. -/
theorem c1_record_gap_comparison (nows : List Nat) (now t : Nat)
    (hlm : (observeTrace nows).last_mention = some t) (hle : t ≤ now) :
    ∃ b, (observeTrace nows).duration = some b ∧
      (b < now - t →
        observe (observeTrace nows) now =
          (⟨some now, some (now - t)⟩, RecordOutcome.recordBroken (now - t))) ∧
      (now - t ≤ b →
        observe (observeTrace nows) now =
          (⟨some now, some b⟩, RecordOutcome.recordNotBroken (now - t))) := by
  obtain ⟨b, hb⟩ := observeTrace_duration_isSome nows t hlm
  exact ⟨b, hb,
    fun hgt => observe_broken _ now t b hlm hle hb hgt,
    fun hge => observe_not_broken _ now t b hlm hle hb hge⟩

/-- Witness for C1 at the trace `[0, 5]` and a mention at `now = 12`: the
recorded state is `last_mention = 5`, `best_gap = 5`, the new gap `7`
breaks the record. -/
theorem c1_record_gap_comparison_witness :
    ∃ b, (observeTrace [0, 5]).duration = some b ∧
      (b < 12 - 5 →
        observe (observeTrace [0, 5]) 12 =
          (⟨some 12, some (12 - 5)⟩, RecordOutcome.recordBroken (12 - 5))) ∧
      (12 - 5 ≤ b →
        observe (observeTrace [0, 5]) 12 =
          (⟨some 12, some b⟩, RecordOutcome.recordNotBroken (12 - 5))) :=
  c1_record_gap_comparison [0, 5] 12 5 (by decide) (by decide)

/-- C5: the first-ever qualifying mention (processed from the initial
state, where `last_mention_at` is absent) yields `NoPriorMention`, sets
`last_mention` to `now` and leaves `best_gap` at exactly zero. -/
theorem c5_first_mention (now : Nat) :
    observe initRecord now = (⟨some now, some 0⟩, RecordOutcome.noPriorMention) :=
  observe_no_prior initRecord now rfl

/-- C10: when the supplied `now` precedes the recorded `last_mention`, the
guarded subtraction (`checked_duration_since`) yields no gap and the
handler takes the first-ever-mention path: outcome `NoPriorMention` (hence
no record announcement), `last_mention` set to `now`, `best_gap` reset to
zero.  Being a total Lean function, the embedded step cannot panic. -/
theorem c10_clock_before_last_mention (r : Record) (now t : Nat)
    (h : r.last_mention = some t) (hlt : now < t) :
    observe r now = (⟨some now, some 0⟩, RecordOutcome.noPriorMention) :=
  observe_stale r now t h hlt

/-- Witness for C10: a record at `last_mention = 10, best_gap = 7`
observed at `now = 3`. -/
theorem c10_clock_before_last_mention_witness :
    observe ⟨some 10, some 7⟩ 3 = (⟨some 3, some 0⟩, RecordOutcome.noPriorMention) :=
  c10_clock_before_last_mention ⟨some 10, some 7⟩ 3 10 rfl (by decide)

/-- C7 fails as stated: on the trace `[0, 10]` the state is
`last_mention = 10, best_gap = 10`; processing a further mention with
`now = 3` (which precedes the recorded instant) resets `best_gap` to zero
even though a prior mention was recorded. -/
theorem c7_counterexample : ¬ bestGapMonotoneClaim := by
  intro h
  rcases h [0, 10] 3 10 0 (by decide) (by decide) (by decide) with h1 | h2
  · cases h1
  · rw [show (observeTrace [0, 10]).last_mention = some 10 from by decide] at h2
    cases h2.2

/-- C7, amended: along any processed trace, once `best_gap` is set, any
change to it strictly increases it, or resets it to zero exactly in the
cases where the gap is not computable — no prior mention was recorded, or
the supplied `now` precedes the recorded `last_mention`. -/
theorem c7_best_gap_monotone (nows : List Nat) (now : Nat) (b b' : Nat)
    (hb : (observeTrace nows).duration = some b)
    (hb' : ((observe (observeTrace nows) now).1).duration = some b')
    (hne : b' ≠ b) :
    b < b' ∨ (b' = 0 ∧ ((observeTrace nows).last_mention = none ∨
      ∃ t, (observeTrace nows).last_mention = some t ∧ now < t)) := by
  set r := observeTrace nows with hr
  cases hlm : r.last_mention with
  | none =>
      rw [observe_no_prior r now hlm] at hb'
      cases hb'
      exact Or.inr ⟨rfl, Or.inl rfl⟩
  | some t =>
      rcases Nat.lt_or_ge now t with hlt | hge
      · rw [observe_stale r now t hlm hlt] at hb'
        cases hb'
        exact Or.inr ⟨rfl, Or.inr ⟨t, rfl, hlt⟩⟩
      · rcases Nat.lt_or_ge b (now - t) with hbt | hbt
        · rw [observe_broken r now t b hlm hge hb hbt] at hb'
          cases hb'
          exact Or.inl hbt
        · rw [observe_not_broken r now t b hlm hge hb hbt] at hb'
          cases hb'
          exact absurd rfl hne

/-- Witness for the amended C7 on the trace `[0, 10]` with `now = 3`:
the reset to zero is reported together with the stale-clock cause. -/
theorem c7_best_gap_monotone_witness :
    10 < 0 ∨ (0 = 0 ∧ ((observeTrace [0, 10]).last_mention = none ∨
      ∃ t, (observeTrace [0, 10]).last_mention = some t ∧ 3 < t)) :=
  c7_best_gap_monotone [0, 10] 3 10 0 (by decide) (by decide) (by decide)

/-! ### Mention counter -/

theorem lookupCount_setCount (t : CounterTable) (a b : UserId) (v : Nat) :
    lookupCount (setCount t a v) b = if b = a then some v else lookupCount t b := by
  induction t with
  | nil =>
      by_cases h : b = a
      · simp [setCount, lookupCount, h]
      · have h' : ¬a = b := fun hc => h hc.symm
        simp [setCount, lookupCount, h, h']
  | cons p rest ih =>
      obtain ⟨k, v'⟩ := p
      by_cases hk : k = a
      · subst hk
        by_cases hb : k = b
        · subst hb
          simp [setCount, lookupCount]
        · have h1 : ¬b = k := fun hc => hb hc.symm
          simp [setCount, lookupCount, hb, h1]
      · by_cases hb : k = b
        · have h2 : ¬b = a := fun hc => hk (hb.trans hc)
          simp [setCount, lookupCount, hk, hb, h2]
        · simp [setCount, lookupCount, hk, hb, ih]

theorem lookupCountD_record_mention (t : CounterTable) (a b : UserId) :
    lookupCountD ((record_mention t a).1) b =
      if b = a then lookupCountD t b + 1 else lookupCountD t b := by
  by_cases h : b = a
  · subst h
    simp [record_mention, lookupCountD, lookupCount_setCount]
  · simp [record_mention, lookupCountD, lookupCount_setCount, h]

theorem length_runCounter (t : CounterTable) (authors : List UserId) :
    (runCounter t authors).length = authors.length := by
  induction authors generalizing t with
  | nil => rfl
  | cons a rest ih => simp [runCounter, ih]

/-- The value returned for the `i`-th event equals the count the table
already stored for that author plus the number of times the author occurs
in the first `i + 1` events. -/
theorem runCounter_getD (authors : List UserId) (t : CounterTable) (i : Nat)
    (h : i < authors.length) :
    (runCounter t authors).getD i 0 =
      lookupCountD t (authors.getD i 0) +
        (authors.take (i + 1)).count (authors.getD i 0) := by
  induction authors generalizing t i with
  | nil => cases h
  | cons a rest ih =>
      cases i with
      | zero =>
          simp [runCounter, record_mention, List.getD_cons_zero,
            List.take_succ_cons, List.count_cons]
      | succ i =>
          have hlen : i < rest.length := by
            simpa using Nat.lt_of_succ_lt_succ h
          have step := ih (record_mention t a).1 i hlen
          rw [show runCounter t (a :: rest) =
                (record_mention t a).2 :: runCounter (record_mention t a).1 rest
              from rfl,
            List.getD_cons_succ, List.getD_cons_succ, List.take_succ_cons,
            List.count_cons, step, lookupCountD_record_mention t a (rest.getD i 0)]
          by_cases hb : rest.getD i 0 = a
          · rw [if_pos hb, if_pos (beq_iff_eq.mpr hb.symm)]
            omega
          · have hb2 : ¬a = rest.getD i 0 := fun hc => hb hc.symm
            rw [if_neg hb, if_neg (by simpa using hb2)]
            omega

/-- C2: starting from the empty table, the value `record_mention` returns
for the `i`-th qualifying mention equals the number of mentions by that
author among the first `i + 1` events — the `N`-th mention of an author
returns `N`.  The entry is created at 1 when absent and incremented by
exactly one otherwise. -/
theorem c2_nth_mention_count (authors : List UserId) (i : Nat)
    (h : i < authors.length) :
    (runCounter [] authors).getD i 0 =
      (authors.take (i + 1)).count (authors.getD i 0) := by
  have step := runCounter_getD authors [] i h
  simpa [lookupCountD, lookupCount] using step

/-- Witness for C2 on the events `[7, 7, 3]`: the second mention by
author `7` (index 1) returns 2. -/
theorem c2_nth_mention_count_witness :
    (runCounter [] [7, 7, 3]).getD 1 0 =
      (([7, 7, 3] : List UserId).take 2).count (([7, 7, 3] : List UserId).getD 1 0) :=
  c2_nth_mention_count [7, 7, 3] 1 (by decide)

/-! ### Report scheduler -/

theorem maybeReport_fst (r now : Nat) :
    (maybeReport r now).1 = true ↔ REPORT_INTERVAL ≤ now - r := by
  unfold maybeReport checkedDurationSince
  by_cases h : r ≤ now
  · simp only [h, if_true]
    by_cases hd : REPORT_INTERVAL ≤ now - r
    · simp [hd]
    · simp [hd]
  · have : now - r = 0 := Nat.sub_eq_zero_of_le (Nat.le_of_not_le h)
    simp only [h, if_false]
    simp [this, REPORT_INTERVAL]

theorem maybeReport_snd (r now : Nat) :
    (maybeReport r now).2 = if (maybeReport r now).1 then now else r := by
  unfold maybeReport checkedDurationSince
  by_cases h : r ≤ now
  · by_cases hd : REPORT_INTERVAL ≤ now - r
    · simp [h, hd]
    · simp [h, hd]
  · simp [h]

theorem maybeReport_fired_le (r now : Nat)
    (h : (maybeReport r now).1 = true) : r + REPORT_INTERVAL ≤ now := by
  have h1 := (maybeReport_fst r now).mp h
  have h2 : r ≤ now := by
    by_contra hc
    have : now - r = 0 := Nat.sub_eq_zero_of_le (Nat.le_of_not_le hc)
    rw [this] at h1
    simp [REPORT_INTERVAL] at h1
  simp only [REPORT_INTERVAL] at h1 ⊢
  omega

/-- Consecutive fired report instants are at least one interval apart, and
the first one is at least one interval past the stored instant. -/
theorem firedTimes_chain (l : List Nat) (r : Nat) :
    List.Chain' (fun a b => a + REPORT_INTERVAL ≤ b) (firedTimes r l) ∧
      (∀ x, (firedTimes r l).head? = some x → r + REPORT_INTERVAL ≤ x) := by
  induction l generalizing r with
  | nil => exact ⟨List.chain'_nil, fun x hx => by cases hx⟩
  | cons n rest ih =>
      by_cases hf : (maybeReport r n).1 = true
      · have hsnd : (maybeReport r n).2 = n := by
          rw [maybeReport_snd, if_pos hf]
        have hft : firedTimes r (n :: rest) = n :: firedTimes n rest := by
          simp [firedTimes, hf, hsnd]
        obtain ⟨ihc, ihh⟩ := ih n
        refine ⟨?_, ?_⟩
        · rw [hft]
          exact List.chain'_cons'.mpr ⟨fun y hy => ihh y hy, ihc⟩
        · intro x hx
          rw [hft] at hx
          simp only [List.head?_cons, Option.some.injEq] at hx
          subst hx
          exact maybeReport_fired_le r n hf
      · have hsnd : (maybeReport r n).2 = r := by
          rw [maybeReport_snd, if_neg (by simpa using hf)]
        have hft : firedTimes r (n :: rest) = firedTimes r rest := by
          simp [firedTimes, hf, hsnd]
        rw [hft]
        exact ih r

/-- C4: a report fires on a qualifying mention exactly when at least the
five-day `REPORT_INTERVAL` has elapsed since the stored last-report
instant (truncated subtraction: a stale clock yields no report); firing
advances the stored instant to `now` in the same step and a non-firing
call leaves it unchanged; consequently along any sequence of qualifying
mentions the fired instants are pairwise at least one interval apart — at
most one report per interval, and the first qualifying mention past the
interval fires exactly one report. -/
theorem c4_report_schedule :
    (∀ r now, (maybeReport r now).1 = true ↔ REPORT_INTERVAL ≤ now - r) ∧
      (∀ r now, (maybeReport r now).2 = if (maybeReport r now).1 then now else r) ∧
      (∀ r nows, List.Chain' (fun a b => a + REPORT_INTERVAL ≤ b) (firedTimes r nows)) :=
  ⟨maybeReport_fst, maybeReport_snd, fun r nows => (firedTimes_chain nows r).1⟩

/-! ### Leaderboard -/

theorem lookupCount_of_mem (t : CounterTable) (hk : (tableKeys t).Nodup)
    (p : UserId × Nat) (hp : p ∈ t) : lookupCount t p.1 = some p.2 := by
  induction t with
  | nil => cases hp
  | cons q rest ih =>
      obtain ⟨k, v⟩ := q
      rw [tableKeys, List.map_cons, List.nodup_cons] at hk
      rcases List.mem_cons.mp hp with heq | hmem
      · subst heq
        simp [lookupCount]
      · have hmm : p.1 ∈ List.map Prod.fst rest :=
          List.mem_map_of_mem Prod.fst hmem
        have hk1 : ¬k = p.1 := fun hc => hk.1 (by rw [hc]; exact hmm)
        simp only [lookupCount, if_neg hk1]
        exact ih hk.2 hmem

theorem top_n_sublist (t : CounterTable) (n : Nat) :
    (top_n t n).Sublist ((List.insertionSort byCount t).reverse) :=
  List.take_sublist n _

theorem mem_top_n (t : CounterTable) (n : Nat) (p : UserId × Nat)
    (hp : p ∈ top_n t n) : p ∈ t := by
  have h1 : p ∈ (List.insertionSort byCount t).reverse :=
    (top_n_sublist t n).mem hp
  rw [List.mem_reverse, List.mem_insertionSort] at h1
  exact h1

theorem top_n_pairwise (t : CounterTable) (n : Nat) :
    (top_n t n).Pairwise (fun a b => b.2 ≤ a.2) := by
  have hs : (List.insertionSort byCount t).Pairwise byCount :=
    List.sorted_insertionSort byCount t
  have hr : ((List.insertionSort byCount t).reverse).Pairwise
      (fun a b => byCount b a) := List.pairwise_reverse.mpr hs
  exact List.Pairwise.sublist (top_n_sublist t n) hr

theorem sumCounts_setCount_incr (t : CounterTable) (a : UserId) :
    sumCounts (setCount t a (lookupCountD t a + 1)) = sumCounts t + 1 := by
  induction t with
  | nil => simp [setCount, sumCounts, lookupCountD, lookupCount]
  | cons q rest ih =>
      obtain ⟨k, v⟩ := q
      by_cases hk : k = a
      · subst hk
        simp [setCount, sumCounts, lookupCountD, lookupCount]
        omega
      · have hl : lookupCountD ((k, v) :: rest) a = lookupCountD rest a := by
          simp [lookupCountD, lookupCount, hk]
        rw [hl]
        simp only [setCount, if_neg hk]
        simp only [sumCounts, List.map_cons, List.sum_cons] at ih ⊢
        omega

theorem sumCounts_record_mention (t : CounterTable) (a : UserId) :
    sumCounts ((record_mention t a).1) = sumCounts t + 1 :=
  sumCounts_setCount_incr t a

theorem sumCounts_foldl (authors : List UserId) (t : CounterTable) :
    sumCounts (authors.foldl (fun t a => (record_mention t a).1) t) =
      sumCounts t + authors.length := by
  induction authors generalizing t with
  | nil => simp
  | cons a rest ih =>
      rw [List.foldl_cons, ih, sumCounts_record_mention]
      simp
      omega

/-- The total count recorded after a run of mentions equals the number of
mentions: no increment is lost and none is counted twice. -/
theorem sumCounts_counterTableOf (authors : List UserId) :
    sumCounts (counterTableOf authors) = authors.length := by
  rw [counterTableOf, sumCounts_foldl]
  simp [sumCounts]

/-- C6 fails as stated: two authors with equal counts produce a
leaderboard with equal adjacent counts, which is not strictly
descending. -/
theorem c6_counterexample : ¬ topTenClaim := by
  intro h
  have h2 := (h [(0, 1), (1, 1)]).2.1
  have he : top_n [(0, 1), (1, 1)] 10 = [(1, 1), (0, 1)] := by decide
  rw [he, List.chain'_cons] at h2
  exact Nat.lt_irrefl 1 h2.1

/-- C6, amended: the leaderboard has at most ten entries, its counts are
sorted in non-increasing (weakly descending) order — ties between equal
counts prevent a strictly descending order — each listed pair reports
exactly the count the table stores for that author (when the table keys
are unambiguous, as they are for a `HashMap`), the listed counts sum to at
most the table total, and the table total equals the number of recorded
increments. -/
theorem c6_top_ten (t : CounterTable) (hkeys : (tableKeys t).Nodup) :
    (top_n t 10).length ≤ 10 ∧
      List.Chain' (fun a b => b.2 ≤ a.2) (top_n t 10) ∧
      (∀ p ∈ top_n t 10, lookupCount t p.1 = some p.2) ∧
      ((top_n t 10).map Prod.snd).sum ≤ sumCounts t ∧
      (∀ authors : List UserId, sumCounts (counterTableOf authors) = authors.length) := by
  refine ⟨?_, ?_, ?_, ?_, sumCounts_counterTableOf⟩
  · exact List.length_take_le 10 _
  · exact (top_n_pairwise t 10).chain'
  · exact fun p hp => lookupCount_of_mem t hkeys p (mem_top_n t 10 p hp)
  · have hsub : ((top_n t 10).map Prod.snd).Sublist
        (((List.insertionSort byCount t).reverse).map Prod.snd) :=
      (top_n_sublist t 10).map Prod.snd
    have hle := hsub.sum_le_sum (fun a _ => Nat.zero_le a)
    have hperm : ((List.insertionSort byCount t).reverse).Perm t :=
      (List.reverse_perm _).trans (List.perm_insertionSort byCount t)
    have hsum : (((List.insertionSort byCount t).reverse).map Prod.snd).sum =
        sumCounts t := (hperm.map Prod.snd).sum_eq
    rw [hsum] at hle
    exact hle

/-- Witness for the amended C6 at the table `[(5, 2), (6, 1)]`. -/
theorem c6_top_ten_witness :
    (top_n [(5, 2), (6, 1)] 10).length ≤ 10 ∧
      List.Chain' (fun a b => b.2 ≤ a.2) (top_n [(5, 2), (6, 1)] 10) ∧
      (∀ p ∈ top_n [(5, 2), (6, 1)] 10,
        lookupCount [(5, 2), (6, 1)] p.1 = some p.2) ∧
      ((top_n [(5, 2), (6, 1)] 10).map Prod.snd).sum ≤ sumCounts [(5, 2), (6, 1)] ∧
      (∀ authors : List UserId, sumCounts (counterTableOf authors) = authors.length) :=
  c6_top_ten [(5, 2), (6, 1)] (by decide)

/-! ### Keyword matcher -/

theorem toNat_ofNat_of_lt {n : Nat} (h : n < 55296) : (Char.ofNat n).toNat = n := by
  rw [Char.ofNat, dif_pos (Or.inl h)]
  rfl

theorem toNat_toLower (c : Char) :
    (Char.toLower c).toNat =
      if 65 ≤ c.toNat ∧ c.toNat ≤ 90 then c.toNat + 32 else c.toNat := by
  unfold Char.toLower
  by_cases h : 65 ≤ c.toNat ∧ c.toNat ≤ 90
  · have h' : c.toNat ≥ 65 ∧ c.toNat ≤ 90 := h
    rw [if_pos h', if_pos h]
    exact toNat_ofNat_of_lt (by omega)
  · have h' : ¬(c.toNat ≥ 65 ∧ c.toNat ≤ 90) := h
    rw [if_neg h', if_neg h]

theorem toLower_eq_of_not_upper (c : Char)
    (h : ¬(65 ≤ c.toNat ∧ c.toNat ≤ 90)) : Char.toLower c = c := by
  unfold Char.toLower
  have h' : ¬(c.toNat ≥ 65 ∧ c.toNat ≤ 90) := h
  rw [if_neg h']

/-- Any word-character class that agrees with `\w` on the ASCII range is
invariant under the matcher's ASCII lower-casing: `A`-`Z` and `a`-`z` are
both word characters, and every other character is left unchanged. -/
theorem toLower_word_invariant (w : Char → Bool)
    (hw : ∀ c, c.toNat < 128 → w c = asciiWordChar c) (c : Char) :
    w (Char.toLower c) = w c := by
  by_cases h : 65 ≤ c.toNat ∧ c.toNat ≤ 90
  · have h1 : (Char.toLower c).toNat = c.toNat + 32 := by
      rw [toNat_toLower, if_pos h]
    rw [hw (Char.toLower c) (by omega), hw c (by omega)]
    rw [Bool.eq_iff_iff]
    simp only [asciiWordChar, Bool.or_eq_true, Bool.and_eq_true,
      decide_eq_true_eq, beq_iff_eq, h1]
    omega
  · rw [toLower_eq_of_not_upper c h]

/-- The scanner consults the word-character class only on characters of
the scanned list. -/
theorem rustHere_congr (w w' : Char → Bool) (l : List Char)
    (h : ∀ c ∈ l, w c = w' c) : rustHere w l = rustHere w' l := by
  match l with
  | [] => rfl
  | [c1] => rfl
  | [c1, c2] => rfl
  | [c1, c2, c3] => rfl
  | c1 :: c2 :: c3 :: c4 :: rest =>
      cases rest with
      | nil => rfl
      | cons d rest' =>
          simp only [rustHere]
          rw [h d (by simp)]

theorem rustSearch_congr (w w' : Char → Bool) (l : List Char) (prev : Bool)
    (h : ∀ c ∈ l, w c = w' c) : rustSearch w prev l = rustSearch w' prev l := by
  induction l generalizing prev with
  | nil => rfl
  | cons c rest ih =>
      show ((!prev && rustHere w (c :: rest)) || rustSearch w (w c) rest) =
        ((!prev && rustHere w' (c :: rest)) || rustSearch w' (w' c) rest)
      rw [rustHere_congr w w' (c :: rest) h, h c (by simp),
        ih (w' c) (fun d hd => h d (List.mem_cons_of_mem c hd))]

/-- On a text whose lower-cased characters are all ASCII, the matcher
depends only on the ASCII restriction of the word-character class. -/
theorem matchesRustWith_congr_ascii (w : Char → Bool)
    (hw : ∀ c, c.toNat < 128 → w c = asciiWordChar c) (s : String)
    (hs : ∀ c ∈ s.data.map Char.toLower, c.toNat < 128) :
    matchesRustWith w s = matchesRustWith asciiWordChar s := by
  unfold matchesRustWith reIsMatch
  exact rustSearch_congr w asciiWordChar _ false (fun c hc => hw c (hs c hc))

theorem rustHere_iff (w : Char → Bool) (l : List Char) :
    rustHere w l = true ↔
      ∃ post, l = rustWord ++ post ∧
        ∀ c, post.head? = some c → w c = false := by
  match l with
  | [] => simp [rustHere, rustWord]
  | [c1] => simp [rustHere, rustWord]
  | [c1, c2] => simp [rustHere, rustWord]
  | [c1, c2, c3] => simp [rustHere, rustWord]
  | c1 :: c2 :: c3 :: c4 :: rest =>
      simp only [rustHere, Bool.and_eq_true, beq_iff_eq]
      constructor
      · rintro ⟨⟨⟨⟨h1, h2⟩, h3⟩, h4⟩, h5⟩
        subst h1; subst h2; subst h3; subst h4
        refine ⟨rest, rfl, ?_⟩
        intro c hc
        cases rest with
        | nil => cases hc
        | cons d rest' =>
            simp only [List.head?_cons, Option.some.injEq] at hc
            subst hc
            simpa using h5
      · rintro ⟨post, heq, hcond⟩
        rw [rustWord] at heq
        injection heq with e1 heq; injection heq with e2 heq
        injection heq with e3 heq; injection heq with e4 heq
        subst e1; subst e2; subst e3; subst e4; subst heq
        refine ⟨⟨⟨⟨rfl, rfl⟩, rfl⟩, rfl⟩, ?_⟩
        cases rest with
        | nil => rfl
        | cons d post' => simpa using hcond d rfl

theorem leftBoundary_nil (w : Char → Bool) (prev : Bool) :
    leftBoundary w prev [] ↔ prev = false := by
  simp [leftBoundary]

theorem leftBoundary_cons (w : Char → Bool) (prev : Bool) (c : Char)
    (pre : List Char) :
    leftBoundary w prev (c :: pre) ↔ leftBoundary w (w c) pre := by
  cases pre with
  | nil => simp [leftBoundary, List.getLast?_singleton]
  | cons d pre' =>
      simp only [leftBoundary, List.getLast?_cons_cons]
      cases h : (d :: pre').getLast? with
      | none => exact absurd h (by simp)
      | some x => exact Iff.rfl

theorem leftBoundary_false_iff (w : Char → Bool) (pre : List Char) :
    leftBoundary w false pre ↔
      ∀ c, pre.getLast? = some c → w c = false := by
  cases h : pre.getLast? with
  | none => simp [leftBoundary, h]
  | some x => simp [leftBoundary, h]

/-- The scanner finds `\brust\b` exactly when the list splits as
`pre ++ rust ++ post` with word boundaries on both sides (`prev` standing
in for the character preceding the scanned region). -/
theorem rustSearch_iff (w : Char → Bool) (l : List Char) (prev : Bool) :
    rustSearch w prev l = true ↔
      ∃ pre post, l = pre ++ rustWord ++ post ∧ leftBoundary w prev pre ∧
        ∀ c, post.head? = some c → w c = false := by
  induction l generalizing prev with
  | nil =>
      constructor
      · intro h; simp [rustSearch] at h
      · rintro ⟨pre, post, heq, -, -⟩
        have hlen := congrArg List.length heq
        simp [rustWord] at hlen
        omega
  | cons c rest ih =>
      rw [show rustSearch w prev (c :: rest) =
            ((!prev && rustHere w (c :: rest)) || rustSearch w (w c) rest)
          from rfl]
      simp only [Bool.or_eq_true, Bool.and_eq_true, Bool.not_eq_true']
      rw [rustHere_iff, ih]
      constructor
      · rintro (⟨hprev, post, heq, hcond⟩ | ⟨pre, post, heq, hlb, hcond⟩)
        · exact ⟨[], post, by simpa using heq,
            (leftBoundary_nil w prev).mpr hprev, hcond⟩
        · exact ⟨c :: pre, post, by simp [heq],
            (leftBoundary_cons w prev c pre).mpr hlb, hcond⟩
      · rintro ⟨pre, post, heq, hlb, hcond⟩
        cases pre with
        | nil =>
            exact Or.inl ⟨(leftBoundary_nil w prev).mp hlb, post,
              by simpa using heq, hcond⟩
        | cons d pre' =>
            rw [List.cons_append, List.cons_append] at heq
            injection heq with h1 h2
            subst h1
            exact Or.inr ⟨pre', post, h2,
              (leftBoundary_cons w prev c pre').mp hlb, hcond⟩

/-- The code matcher agrees with the specification predicate, for every
word-character class invariant under ASCII lower-casing. -/
theorem matchesRustWith_iff (w : Char → Bool)
    (hwl : ∀ c, w (Char.toLower c) = w c) (text : String) :
    matchesRustWith w text = true ↔ wholeWordRustWith w text := by
  rw [matchesRustWith, reIsMatch, rustSearch_iff]
  constructor
  · rintro ⟨pre, post, heq, hlb, hcond⟩
    rw [List.append_assoc] at heq
    obtain ⟨pre0, rest0, hsplit, hpre0, hrest0⟩ := List.map_eq_append_iff.mp heq
    obtain ⟨w0, post0, hsplit2, hw0, hpost0⟩ := List.map_eq_append_iff.mp hrest0
    refine ⟨pre0, w0, post0, ?_, hw0, ?_, ?_⟩
    · rw [hsplit, hsplit2, List.append_assoc]
    · intro c hc
      have hl : pre.getLast? = some (Char.toLower c) := by
        rw [← hpre0, List.getLast?_map, hc]
        rfl
      have := (leftBoundary_false_iff w pre).mp hlb (Char.toLower c) hl
      rwa [hwl c] at this
    · intro c hc
      have hh : post.head? = some (Char.toLower c) := by
        rw [← hpost0, List.head?_map, hc]
        rfl
      have := hcond (Char.toLower c) hh
      rwa [hwl c] at this
  · rintro ⟨pre0, w0, post0, heq0, hw0, hlast, hhead⟩
    refine ⟨pre0.map Char.toLower, post0.map Char.toLower, ?_, ?_, ?_⟩
    · rw [heq0, List.map_append, List.map_append, hw0, List.append_assoc]
    · rw [leftBoundary_false_iff]
      intro c hc
      rw [List.getLast?_map] at hc
      obtain ⟨c0, hc0, hfc⟩ := Option.map_eq_some'.mp hc
      rw [← hfc, hwl c0]
      exact hlast c0 hc0
    · intro c hc
      rw [List.head?_map] at hc
      obtain ⟨c0, hc0, hfc⟩ := Option.map_eq_some'.mp hc
      rw [← hfc, hwl c0]
      exact hhead c0 hc0

/-- C3: for the regex engine's word-character class `w` — the `regex`
crate's `\b` is Unicode-aware by default; the exact class is library code
outside this repository and is constrained here only by its documented
restriction to ASCII, `[0-9A-Za-z_]` — the keyword matcher returns true
exactly when `rust` occurs in the text as a whole word, bounded by
non-word characters or the string edges and compared
ASCII-case-insensitively, and the spec's all-ASCII examples behave as
stated.  The matcher is a total function by construction, so it cannot
panic. -/
theorem c3_keyword_matcher (w : Char → Bool)
    (hw : ∀ c, c.toNat < 128 → w c = asciiWordChar c) :
    (∀ text : String, matchesRustWith w text = true ↔ wholeWordRustWith w text) ∧
      matchesRustWith w "Rust" = true ∧ matchesRustWith w "RUST" = true ∧
      matchesRustWith w "I love rust!" = true ∧
      matchesRustWith w "trust" = false ∧ matchesRustWith w "rusty" = false := by
  have hwl := toLower_word_invariant w hw
  refine ⟨fun text => matchesRustWith_iff w hwl text, ?_, ?_, ?_, ?_, ?_⟩
  · rw [matchesRustWith_congr_ascii w hw "Rust" (by decide)]; decide
  · rw [matchesRustWith_congr_ascii w hw "RUST" (by decide)]; decide
  · rw [matchesRustWith_congr_ascii w hw "I love rust!" (by decide)]; decide
  · rw [matchesRustWith_congr_ascii w hw "trust" (by decide)]; decide
  · rw [matchesRustWith_congr_ascii w hw "rusty" (by decide)]; decide

/-- Witness for C3, instantiating the word-character class at its own
ASCII restriction (with which it trivially agrees on ASCII). -/
theorem c3_keyword_matcher_witness :
    (∀ text : String, matchesRustWith asciiWordChar text = true ↔
      wholeWordRustWith asciiWordChar text) ∧
      matchesRustWith asciiWordChar "Rust" = true ∧
      matchesRustWith asciiWordChar "RUST" = true ∧
      matchesRustWith asciiWordChar "I love rust!" = true ∧
      matchesRustWith asciiWordChar "trust" = false ∧
      matchesRustWith asciiWordChar "rusty" = false :=
  c3_keyword_matcher asciiWordChar (fun _ _ => rfl)

/-! ### Handler frame properties -/

/-- C8: for every word-character class, the state transition and the
attempted announcements of a qualifying mention are identical whatever
the outcome of the outbound sends — a delivery failure only adds a log
line (`tracing::error!`), it is never propagated, rolled back or
retried. -/
theorem c8_delivery_failure_is_only_logged (w : Char → Bool) (botId : UserId)
    (st : SysState) (m : Msg) (now : Nat) (ch ok1 ok2 ok1' ok2' : Bool) :
    (message w botId ⟨ch, ok1, ok2⟩ st m now).1 =
        (message w botId ⟨ch, ok1', ok2'⟩ st m now).1 ∧
      (message w botId ⟨ch, ok1, ok2⟩ st m now).2.1 =
        (message w botId ⟨ch, ok1', ok2'⟩ st m now).2.1 := by
  by_cases h : (m.authorId == botId || !(matchesRustWith w m.content)) = true
  · constructor <;> simp [message, h]
  · constructor <;> simp [message, h]

/-- C9: a message whose author is the bot itself, or whose text the regex
engine (with its word-character class `w`) does not match, is dropped by
the guard: the state is returned untouched and no announcement and no log
line is produced. -/
theorem c9_non_qualifying_is_noop (w : Char → Bool) (botId : UserId)
    (env : DeliveryEnv) (st : SysState) (m : Msg) (now : Nat)
    (h : m.authorId = botId ∨ matchesRustWith w m.content = false) :
    message w botId env st m now = (st, [], []) := by
  rcases h with h | h
  · simp [message, h]
  · simp [message, h]

/-- Witness for C9: author 2 (not the bot, id 1) writes `trust`, which
does not match (evaluated at the ASCII restriction of the word class,
with which every admissible class agrees on this all-ASCII text). -/
theorem c9_non_qualifying_is_noop_witness :
    message asciiWordChar 1 ⟨true, true, true⟩ ⟨initRecord, [], 0⟩ ⟨2, "trust"⟩ 5 =
      (⟨initRecord, [], 0⟩, [], []) :=
  c9_non_qualifying_is_noop asciiWordChar 1 ⟨true, true, true⟩
    ⟨initRecord, [], 0⟩ ⟨2, "trust"⟩ 5 (Or.inr (by decide))

end Crabe
